import Mathlib

/-!
Verification of `rename_frames.py`: a shallow embedding of the filename
parser (`parse_filename`), the naming function (`build_new_name`) and the
collision-safe rename planner (`main`), together with proofs of the
specified properties.

Modelling conventions.  Python strings are modelled as Lean `String` and
`List Char`; the regular expressions of the source are unfolded into
executable functions that realise exactly the match semantics the source
relies on (leftmost match, greedy quantifiers with backtracking, the
case-insensitive flag, word boundaries).  The character classes are taken
at their ASCII meaning.  The filesystem directory is a snapshot: a list of
filenames; a rename replaces the source name by the target name.
-/

namespace RenameFrames

/-- Python `\s` (ASCII range): space, tab, newline, return, vertical tab, form feed. -/
def isPySpace (c : Char) : Bool :=
  c = ' ' || c = '\t' || c = '\n' || c = '\r' || c = '\x0b' || c = '\x0c'

/-- Python `\w` (ASCII range): letters, digits, underscore.  Used for `\b`. -/
def isWordChar (c : Char) : Bool :=
  c.isAlpha || c.isDigit || c = '_'

/-! Character lists of the literal words the source regexes use. -/

def pngExt : List Char := ".png".data

def wLight : List Char := "light".data

def wDark : List Char := "dark".data

def wTemplate : List Char := "template".data

def wAquarell : List Char := "aquarell".data

def wCkt : List Char := "ckt".data

def wCropped : List Char := "cropped".data

def wSmallClose : List Char := "small close".data

def wSmallFar : List Char := "small far".data

/-! String constants for the field values the parser can produce. -/

def sTemplate : String := "template"

def sAquarell : String := "aquarell"

def sFull : String := "full"

def sCrop : String := "crop"

def sClose : String := "close"

def sLight : String := "light"

def sDark : String := "dark"

/-- One step of `re.sub(r"\s+", " ", s)`: every maximal run of whitespace
becomes a single space, all other characters pass through. -/
def squeeze : List Char → List Char
  | [] => []
  | c :: cs =>
    if isPySpace c then
      match squeeze cs with
      | ' ' :: r => ' ' :: r
      | r => ' ' :: r
    else c :: squeeze cs

/-- Python `str.strip()`: drop leading and trailing whitespace. -/
def stripList (l : List Char) : List Char :=
  ((l.dropWhile isPySpace).reverse.dropWhile isPySpace).reverse

/-- `norm_spaces` of the source: collapse whitespace runs, then strip. -/
def norm_spaces (l : List Char) : List Char :=
  stripList (squeeze l)

/-- Case-insensitive suffix test against an already-lowercase pattern. -/
def endsWithCI (pat l : List Char) : Bool :=
  decide (pat.length ≤ l.length) &&
    decide ((l.drop (l.length - pat.length)).map Char.toLower = pat)

/-- `PNG_RE.search(name)` for `re.compile(r"\.png$", re.IGNORECASE)`:
the dollar matches at the end of the string or just before a final newline. -/
def pngSearch (l : List Char) : Bool :=
  endsWithCI pngExt l ||
    (match l.getLast? with
     | some '\n' => endsWithCI pngExt l.dropLast
     | _ => false)

/-- `re.search(r"\s+(light|dark)$", base, re.IGNORECASE)` followed by the
extraction in the source of `base[:m.start()].strip()` and `m.group(1).lower()`.
The bases the source passes here are stripped, so the dollar is end of
string.  A match needs the base to end with the tone word preceded by at
least one whitespace character; the match starts at the beginning of that
whitespace run, hence the remainder is the prefix with its trailing
whitespace stripped. -/
def splitTone (base : List Char) : Option (List Char × List Char) :=
  if endsWithCI wLight base then
    match (base.take (base.length - 5)).getLast? with
    | some c => if isPySpace c then some (stripList (base.take (base.length - 5)), wLight) else none
    | none => none
  else if endsWithCI wDark base then
    match (base.take (base.length - 4)).getLast? with
    | some c => if isPySpace c then some (stripList (base.take (base.length - 4)), wDark) else none
    | none => none
  else none

/-- Match of `(\d{2,4}x\d{2,4})` (IGNORECASE) anchored at the head of `l`,
with the greedy backtracking of Python: the first digit group takes at most four
digits of the run starting here (shorter retries cannot succeed because the
following character is then still a digit, never an `x`), the separator is
`x` or `X`, the final digit group greedily takes at most four digits. -/
def sizeAt (l : List Char) : Option (List Char) :=
  let a := (l.takeWhile Char.isDigit).take 4
  if a.length < 2 then none
  else
    match l.drop a.length with
    | [] => none
    | c :: rest =>
      if c = 'x' || c = 'X' then
        let b := (rest.takeWhile Char.isDigit).take 4
        if b.length < 2 then none else some (a ++ c :: b)
      else none

/-- `re.search` for the size pattern: leftmost starting position wins. -/
def findSize : List Char → Option (List Char)
  | [] => none
  | c :: cs =>
    match sizeAt (c :: cs) with
    | some s => some s
    | none => findSize cs

/-- Case-insensitive literal test at the head of the list; the pattern is
already lowercase. -/
def isPrefixCI (pat l : List Char) : Bool :=
  decide ((l.take pat.length).map Char.toLower = pat)

/-- Word boundary `\b` before a match position, given the preceding character
(the patterns of the source start with a word character). -/
def boundaryBefore : Option Char → Bool
  | none => true
  | some p => !isWordChar p

/-- Word boundary `\b` after a match of length `pat.length` at the head of
`l` (the patterns of the source end with a word character). -/
def boundaryAfter (pat l : List Char) : Bool :=
  match l.drop pat.length with
  | [] => true
  | d :: _ => !isWordChar d

/-- Scan for `\b<pat>\b` (IGNORECASE), carrying the previously seen character. -/
def hasWordFrom (pat : List Char) : Option Char → List Char → Bool
  | _, [] => false
  | prev, c :: cs =>
    (isPrefixCI pat (c :: cs) && boundaryBefore prev && boundaryAfter pat (c :: cs)) ||
      hasWordFrom pat (some c) cs

/-- `re.search(r"\b<pat>\b", l, re.IGNORECASE) is not None`. -/
def hasWordCI (pat l : List Char) : Bool :=
  hasWordFrom pat none l

/-- `re.match(r"(?i)^ckt\b", l) is not None`. -/
def startsCktWord (l : List Char) : Bool :=
  isPrefixCI wCkt l && boundaryAfter wCkt l

/-- The dictionary `parse_filename` returns on success. -/
structure Descriptor where
  original : String
  family : String
  size : String
  variant : String
  tone : String
deriving DecidableEq, Repr

/-- The extension check and `norm_spaces(name[:-4])` of `parse_filename`. -/
def baseOf (name : String) : Option (List Char) :=
  if pngSearch name.data then some (norm_spaces (name.data.take (name.data.length - 4)))
  else none

/-- The family branch of `parse_filename` (lines 41-50 of the source). -/
def familyOf (b : List Char) : Option String :=
  if hasWordCI wTemplate b then some sTemplate
  else if hasWordCI wAquarell b then some sAquarell
  else if startsCktWord b then some sTemplate
  else none

/-- The variant branch of `parse_filename` (lines 57-63 of the source). -/
def variantOf (b : List Char) : String :=
  if hasWordCI wCropped b then sCrop
  else if hasWordCI wSmallClose b then sClose
  else if hasWordCI wSmallFar b then sFull
  else sFull

/-- `parse_filename` of the source: extension, tone, size, family, variant,
each stage failing closed. -/
def parse_filename (name : String) : Option Descriptor :=
  match baseOf name with
  | none => none
  | some base =>
    match splitTone base with
    | none => none
    | some (bwt, toneL) =>
      match findSize bwt with
      | none => none
      | some sz =>
        match familyOf bwt with
        | none => none
        | some fam =>
          some { original := name, family := fam, size := String.mk (sz.map Char.toLower),
                 variant := variantOf bwt, tone := String.mk toneL }

/-- `build_new_name` of the source. -/
def build_new_name (d : Descriptor) : String :=
  "ckt-" ++ d.family ++ "-" ++ d.size ++ "-" ++ d.variant ++ "-" ++ d.tone ++ ".png"

/-! ## The planner (`main` of the source)

The current directory is a snapshot: the list of names of the files it
holds.  `sorted(...)` over paths of one directory orders by name. -/

/-- Lexicographic comparison of character lists by code point. -/
def charListLe : List Char → List Char → Bool
  | [], _ => true
  | _ :: _, [] => false
  | c :: cs, d :: ds =>
    if c.toNat < d.toNat then true
    else if d.toNat < c.toNat then false
    else charListLe cs ds

/-- Lexicographic order on strings by code point, as Python compares them. -/
def strLe (a b : String) : Bool :=
  charListLe a.data b.data

/-- Insert into a sorted list. -/
def insertSorted (a : String) : List String → List String
  | [] => [a]
  | b :: bs => if strLe a b then a :: b :: bs else b :: insertSorted a bs

/-- Insertion sort, the model of Python `sorted`. -/
def sortNames : List String → List String
  | [] => []
  | a :: as => insertSorted a (sortNames as)

/-- The candidate files: names matching `PNG_RE`, sorted (line 84). -/
def pngsOf (disk : List String) : List String :=
  sortNames (disk.filter (fun n => pngSearch n.data))

/-- The mapping loop of lines 86-94: parse each candidate, skip failures,
skip entries whose target equals their source, keep (source, target). -/
def mappingsOf (pngs : List String) : List (String × String) :=
  pngs.filterMap (fun p =>
    match parse_filename p with
    | none => none
    | some d =>
      let n := build_new_name d
      if n = p then none else some (p, n))

/-- The surviving plan entries for a directory snapshot. -/
def survivors (disk : List String) : List (String × String) :=
  mappingsOf (pngsOf disk)

/-- The target names of the surviving entries. -/
def targetsOf (disk : List String) : List String :=
  (survivors disk).map Prod.snd

/-- Line 102: the set of duplicated targets, then `sorted` (line 105). -/
def dupesOf (targets : List String) : List String :=
  sortNames ((targets.filter (fun t => decide (1 < targets.count t))).dedup)

/-- The duplicated targets of a directory snapshot. -/
def dupeTargets (disk : List String) : List String :=
  dupesOf (targetsOf disk)

/-- Line 111: the entries whose target already exists on disk.  The disk
snapshot at validation time is the listing of line 84: nothing has been
renamed yet. -/
def offenders (disk : List String) : List (String × String) :=
  (survivors disk).filter (fun m => decide (m.2 ∈ disk))

/-- Outcome of one run of `main`. -/
inductive RunOutcome where
  | noMatching
  | collisionError (dupes : List String)
  | existsError (targets : List String)
  | proposed (maps : List (String × String))
deriving DecidableEq, Repr

/-- The validation sequence of lines 96-121: no candidates, duplicated
targets, existing targets, otherwise the ordered plan. -/
def planOf (disk : List String) : RunOutcome :=
  if (survivors disk).isEmpty then RunOutcome.noMatching
  else if !(dupeTargets disk).isEmpty then RunOutcome.collisionError (dupeTargets disk)
  else if !(offenders disk).isEmpty then RunOutcome.existsError ((offenders disk).map Prod.snd)
  else RunOutcome.proposed (survivors disk)

/-- One rename on the directory snapshot: the file called `src` is now
called `dst`. -/
def renameOn (disk : List String) (src dst : String) : List String :=
  disk.map (fun n => if n = src then dst else n)

/-- The apply loop of lines 127-131 when every move succeeds. -/
def applyMappings (maps : List (String × String)) (disk : List String) : List String :=
  maps.foldl (fun d m => renameOn d m.1 m.2) disk

/-- A full run of `main`: plan, and mutate only on `--apply` with a valid
plan.  The error paths return before any mutation. -/
def runMain (disk : List String) (applyFlag : Bool) : RunOutcome × List String :=
  match planOf disk with
  | RunOutcome.proposed maps =>
    (RunOutcome.proposed maps, if applyFlag then applyMappings maps disk else disk)
  | r => (r, disk)

/-- The execution loop of lines 127-131 with the move primitive abstracted
(`git mv` with `check=True`, or `Path.rename`; both raise on failure and
the loop has no handler, so the run stops at the first failed move).
Returns the entries actually applied, in order, and the failing entry. -/
def executeMoves (mover : String → String → Bool) :
    List (String × String) → List (String × String) × Option (String × String)
  | [] => ([], none)
  | m :: rest =>
    if mover m.1 m.2 then
      let r := executeMoves mover rest
      (m :: r.1, r.2)
    else ([], some m)

/-! ## Character facts -/

/-- ASCII lowering fixes decimal digits. -/
theorem toLower_of_isDigit {c : Char} (h : c.isDigit = true) : c.toLower = c := by
  simp only [Char.isDigit, decide_eq_true_eq, Bool.and_eq_true, ge_iff_le] at h
  obtain ⟨h1, h2⟩ := h
  rw [UInt32.le_def, BitVec.le_def] at h1 h2
  have e1 : ((48 : UInt32)).toBitVec.toNat = 48 := rfl
  have e2 : ((57 : UInt32)).toBitVec.toNat = 57 := rfl
  rw [e1] at h1; rw [e2] at h2
  unfold Char.toLower
  have hno : ¬ (c.toNat ≥ 65 ∧ c.toNat ≤ 90) := by
    unfold Char.toNat UInt32.toNat
    intro hc
    omega
  simp [hno]

/-- Decimal digits are not uppercase letters. -/
theorem not_isUpper_of_isDigit {c : Char} (h : c.isDigit = true) : c.isUpper = false := by
  simp only [Char.isDigit, decide_eq_true_eq, Bool.and_eq_true, ge_iff_le] at h
  obtain ⟨h1, h2⟩ := h
  rw [UInt32.le_def, BitVec.le_def] at h1 h2
  have e2 : ((57 : UInt32)).toBitVec.toNat = 57 := rfl
  have e3 : ((65 : UInt32)).toBitVec.toNat = 65 := rfl
  rw [e2] at h2
  simp only [Char.isUpper, Bool.and_eq_false_iff, ge_iff_le]
  left
  simp only [decide_eq_false_iff_not]
  rw [UInt32.le_def, BitVec.le_def, e3]
  omega

/-- Decimal digits are not whitespace. -/
theorem isPySpace_false_of_isDigit {c : Char} (h : c.isDigit = true) : isPySpace c = false := by
  by_contra hc
  rw [Bool.not_eq_false] at hc
  simp only [isPySpace, Bool.or_eq_true, decide_eq_true_eq] at hc
  rcases hc with ((((rfl | rfl) | rfl) | rfl) | rfl) | rfl <;> exact absurd h (by decide)

/-- Lowering a list of digits is the identity. -/
theorem map_toLower_of_digits {a : List Char} (h : ∀ x ∈ a, x.isDigit = true) :
    a.map Char.toLower = a := by
  induction a with
  | nil => rfl
  | cons x xs ih =>
    simp only [List.map_cons, toLower_of_isDigit (h x (List.mem_cons_self x xs))]
    rw [ih (fun y hy => h y (List.mem_cons_of_mem x hy))]

/-! ## List helpers -/

/-- Membership is invariant under the insertion step of the sort. -/
theorem mem_insertSorted {a x : String} {l : List String} :
    x ∈ insertSorted a l ↔ x = a ∨ x ∈ l := by
  induction l with
  | nil => simp [insertSorted]
  | cons b bs ih =>
    simp only [insertSorted]
    split
    · simp [List.mem_cons]
    · simp only [List.mem_cons, ih]
      tauto

/-- Sorting preserves membership. -/
theorem mem_sortNames {x : String} {l : List String} : x ∈ sortNames l ↔ x ∈ l := by
  induction l with
  | nil => simp [sortNames]
  | cons a as ih => simp [sortNames, mem_insertSorted, ih]

/-- A character of the squeezed list is a space or came from the input. -/
theorem mem_squeeze {l : List Char} {c : Char} (hc : c ∈ squeeze l) : c = ' ' ∨ c ∈ l := by
  induction l with
  | nil => simp [squeeze] at hc
  | cons a as ih =>
    simp only [squeeze] at hc
    split at hc
    · split at hc
      · rename_i heq
        rcases List.mem_cons.mp hc with rfl | hmem
        · exact Or.inl rfl
        · rcases ih (by rw [heq]; exact List.mem_cons_of_mem _ hmem) with h | h
          · exact Or.inl h
          · exact Or.inr (List.mem_cons_of_mem a h)
      · rcases List.mem_cons.mp hc with rfl | hmem
        · exact Or.inl rfl
        · rcases ih hmem with h | h
          · exact Or.inl h
          · exact Or.inr (List.mem_cons_of_mem a h)
    · rcases List.mem_cons.mp hc with rfl | hmem
      · exact Or.inr (List.mem_cons_self _ _)
      · rcases ih hmem with h | h
        · exact Or.inl h
        · exact Or.inr (List.mem_cons_of_mem a h)

/-- A whitespace character in the squeezed list witnesses one in the input. -/
theorem space_mem_squeeze {l : List Char} {c : Char} (hc : c ∈ squeeze l)
    (hs : isPySpace c = true) : ∃ w ∈ l, isPySpace w = true := by
  induction l with
  | nil => simp [squeeze] at hc
  | cons a as ih =>
    simp only [squeeze] at hc
    split at hc
    · rename_i ha
      exact ⟨a, List.mem_cons_self a as, ha⟩
    · rename_i ha
      rcases List.mem_cons.mp hc with rfl | hmem
      · exact absurd hs (by simpa using ha)
      · obtain ⟨w, hw, hws⟩ := ih hmem
        exact ⟨w, List.mem_cons_of_mem a hw, hws⟩

/-- Stripping keeps a sublist of the input. -/
theorem stripList_subset (l : List Char) : stripList l ⊆ l := by
  intro c hc
  simp only [stripList, List.mem_reverse] at hc
  have h1 := (List.dropWhile_sublist (l := (l.dropWhile isPySpace).reverse) isPySpace).subset hc
  rw [List.mem_reverse] at h1
  exact (List.dropWhile_sublist (l := l) isPySpace).subset h1

/-- A character of the normalized list is a space or a character of the input. -/
theorem mem_norm_spaces {l : List Char} {c : Char} (hc : c ∈ norm_spaces l) :
    c = ' ' ∨ c ∈ l := by
  exact mem_squeeze (stripList_subset _ hc)

/-- A whitespace character of the normalized list witnesses one in the input. -/
theorem space_mem_norm_spaces {l : List Char} {c : Char} (hc : c ∈ norm_spaces l)
    (hs : isPySpace c = true) : ∃ w ∈ l, isPySpace w = true := by
  exact space_mem_squeeze (stripList_subset _ hc) hs

/-! ## Stage inversions for the parser -/

/-- A successful tone split returns one of the two tone words, and the base
contained a whitespace character. -/
theorem splitTone_spec {base bwt toneL : List Char}
    (h : splitTone base = some (bwt, toneL)) :
    (toneL = wLight ∨ toneL = wDark) ∧ ∃ c ∈ base, isPySpace c = true := by
  unfold splitTone at h
  split at h
  · split at h
    · rename_i c heq
      split at h
      · rename_i hsp
        refine ⟨Or.inl (by cases h; rfl), c, ?_, hsp⟩
        exact List.take_subset _ _ (List.mem_of_mem_getLast? heq)
      · cases h
    · cases h
  · split at h
    · split at h
      · rename_i c heq
        split at h
        · rename_i hsp
          refine ⟨Or.inr (by cases h; rfl), c, ?_, hsp⟩
          exact List.take_subset _ _ (List.mem_of_mem_getLast? heq)
        · cases h
      · cases h
    · cases h

/-- On a base without whitespace the tone search fails. -/
theorem splitTone_none {base : List Char} (h : ∀ c ∈ base, isPySpace c = false) :
    splitTone base = none := by
  unfold splitTone
  split
  · split
    · rename_i c heq
      have hc : c ∈ base := List.take_subset _ _ (List.mem_of_mem_getLast? heq)
      simp [h c hc]
    · rfl
  · split
    · split
      · rename_i c heq
        have hc : c ∈ base := List.take_subset _ _ (List.mem_of_mem_getLast? heq)
        simp [h c hc]
      · rfl
    · rfl

/-- Structure of a successful size match at a fixed position. -/
theorem sizeAt_spec {l s : List Char} (h : sizeAt l = some s) :
    ∃ a c b, s = a ++ c :: b ∧ (∀ x ∈ a, x.isDigit = true) ∧ (∀ x ∈ b, x.isDigit = true) ∧
      2 ≤ a.length ∧ a.length ≤ 4 ∧ 2 ≤ b.length ∧ b.length ≤ 4 ∧ (c = 'x' ∨ c = 'X') := by
  simp only [sizeAt] at h
  split at h
  · cases h
  · rename_i hlen
    split at h
    · cases h
    · rename_i c rest heq
      split at h
      · rename_i hx
        split at h
        · cases h
        · rename_i hblen
          refine ⟨(l.takeWhile Char.isDigit).take 4, c, (rest.takeWhile Char.isDigit).take 4,
            (Option.some_inj.mp h).symm, ?_, ?_, ?_, ?_, ?_, ?_, ?_⟩
          · intro x hx2
            exact List.mem_takeWhile_imp (List.take_subset _ _ hx2)
          · intro x hx2
            exact List.mem_takeWhile_imp (List.take_subset _ _ hx2)
          · omega
          · rw [List.length_take]
            exact min_le_left _ _
          · omega
          · rw [List.length_take]
            exact min_le_left _ _
          · simpa using hx
      · cases h

/-- A found size is a size match at some position. -/
theorem findSize_spec {l s : List Char} (h : findSize l = some s) :
    ∃ t, sizeAt t = some s := by
  induction l with
  | nil => simp [findSize] at h
  | cons c cs ih =>
    simp only [findSize] at h
    split at h
    · rename_i s' heq
      exact ⟨c :: cs, by rw [heq, h]⟩
    · exact ih h

/-- The family branch yields one of the two families. -/
theorem familyOf_spec {b : List Char} {fam : String} (h : familyOf b = some fam) :
    fam = sTemplate ∨ fam = sAquarell := by
  unfold familyOf at h
  split at h
  · exact Or.inl (Option.some_inj.mp h).symm
  · split at h
    · exact Or.inr (Option.some_inj.mp h).symm
    · split at h
      · exact Or.inl (Option.some_inj.mp h).symm
      · cases h

/-- The variant branch yields one of the three variants. -/
theorem variantOf_spec (b : List Char) :
    variantOf b = sFull ∨ variantOf b = sCrop ∨ variantOf b = sClose := by
  unfold variantOf
  split
  · exact Or.inr (Or.inl rfl)
  · split
    · exact Or.inr (Or.inr rfl)
    · split
      · exact Or.inl rfl
      · exact Or.inl rfl

/-- The `cropped` branch is evaluated first and short-circuits. -/
theorem variantOf_cropped {b : List Char} (h : hasWordCI wCropped b = true) :
    variantOf b = sCrop := by
  unfold variantOf
  simp [h]

/-- Characterisation of a successful parse in terms of its stages. -/
theorem parse_some_elim {name : String} {d : Descriptor}
    (h : parse_filename name = some d) :
    ∃ base bwt toneL sz fam,
      baseOf name = some base ∧ splitTone base = some (bwt, toneL) ∧
      findSize bwt = some sz ∧ familyOf bwt = some fam ∧
      d = { original := name, family := fam, size := String.mk (sz.map Char.toLower),
            variant := variantOf bwt, tone := String.mk toneL } := by
  unfold parse_filename at h
  split at h
  · cases h
  · rename_i base hbase
    split at h
    · cases h
    · rename_i p bwt toneL htone
      split at h
      · cases h
      · rename_i sz hsz
        split at h
        · cases h
        · rename_i fam hfam
          exact ⟨base, bwt, toneL, sz, fam, hbase, htone, hsz, hfam,
            (Option.some_inj.mp h).symm⟩

/-- The extension stage: the name matched `PNG_RE` and the base is the
normalization of the name without its last four characters. -/
theorem baseOf_spec {name : String} {base : List Char} (h : baseOf name = some base) :
    pngSearch name.data = true ∧
      base = norm_spaces (name.data.take (name.data.length - 4)) := by
  unfold baseOf at h
  split at h
  · rename_i hp
    exact ⟨hp, (Option.some_inj.mp h).symm⟩
  · cases h

/-! ## The shape of parsed fields and generated names -/

/-- The size field of the wire format: two to four digits, a lowercase `x`,
two to four digits. -/
def sizeWire (s : String) : Prop :=
  ∃ a b : List Char, s.data = a ++ 'x' :: b ∧ (∀ x ∈ a, x.isDigit = true) ∧
    (∀ x ∈ b, x.isDigit = true) ∧ 2 ≤ a.length ∧ a.length ≤ 4 ∧ 2 ≤ b.length ∧ b.length ≤ 4

/-- The wire contract of the tool: `ckt-<family>-<size>-<variant>-<tone>.<ext>`,
entirely lowercase, with each component drawn from its domain. -/
def wireFormat (s : String) : Prop :=
  ∃ fam sz var tn : String,
    (fam = sTemplate ∨ fam = sAquarell) ∧ sizeWire sz ∧
    (var = sFull ∨ var = sCrop ∨ var = sClose) ∧ (tn = sLight ∨ tn = sDark) ∧
    s = "ckt-" ++ fam ++ "-" ++ sz ++ "-" ++ var ++ "-" ++ tn ++ ".png" ∧
    ∀ c ∈ s.data, c.isUpper = false

/-- Every field of a parsed Descriptor is drawn from its domain. -/
theorem parse_fields {name : String} {d : Descriptor} (h : parse_filename name = some d) :
    d.original = name ∧
    (d.family = sTemplate ∨ d.family = sAquarell) ∧
    sizeWire d.size ∧
    (d.variant = sFull ∨ d.variant = sCrop ∨ d.variant = sClose) ∧
    (d.tone = sLight ∨ d.tone = sDark) := by
  obtain ⟨base, bwt, toneL, sz, fam, hb, ht, hs, hf, rfl⟩ := parse_some_elim h
  refine ⟨rfl, familyOf_spec hf, ?_, variantOf_spec bwt, ?_⟩
  · obtain ⟨t, hts⟩ := findSize_spec hs
    obtain ⟨a, c, b, rfl, hda, hdb, ha2, ha4, hb2, hb4, hc⟩ := sizeAt_spec hts
    refine ⟨a, b, ?_, hda, hdb, ha2, ha4, hb2, hb4⟩
    show (a ++ c :: b).map Char.toLower = a ++ 'x' :: b
    rw [List.map_append, List.map_cons, map_toLower_of_digits hda, map_toLower_of_digits hdb]
    rcases hc with rfl | rfl
    · rfl
    · rfl
  · rcases splitTone_spec ht with ⟨hl | hd2, -⟩
    · subst hl
      exact Or.inl rfl
    · subst hd2
      exact Or.inr rfl

/-- The character list of a generated name, component by component. -/
theorem build_data (d : Descriptor) :
    (build_new_name d).data =
      "ckt-".data ++ d.family.data ++ "-".data ++ d.size.data ++ "-".data ++
        d.variant.data ++ "-".data ++ d.tone.data ++ ".png".data := by
  simp [build_new_name, String.data_append]

/-- Every character of a generated name is non-whitespace and non-uppercase. -/
theorem build_char_facts {name : String} {d : Descriptor} (h : parse_filename name = some d) :
    ∀ c ∈ (build_new_name d).data, isPySpace c = false ∧ c.isUpper = false := by
  obtain ⟨-, hfam, hsize, hvar, htone⟩ := parse_fields h
  obtain ⟨a, b, hdata, hda, hdb, -, -, -, -⟩ := hsize
  have hckt : ∀ c ∈ "ckt-".data, isPySpace c = false ∧ c.isUpper = false := by decide
  have hdash : ∀ c ∈ "-".data, isPySpace c = false ∧ c.isUpper = false := by decide
  have hext : ∀ c ∈ ".png".data, isPySpace c = false ∧ c.isUpper = false := by decide
  have hfam2 : ∀ c ∈ d.family.data, isPySpace c = false ∧ c.isUpper = false := by
    rcases hfam with hf | hf <;> rw [hf] <;> decide
  have hvar2 : ∀ c ∈ d.variant.data, isPySpace c = false ∧ c.isUpper = false := by
    rcases hvar with hv | hv | hv <;> rw [hv] <;> decide
  have htone2 : ∀ c ∈ d.tone.data, isPySpace c = false ∧ c.isUpper = false := by
    rcases htone with ht | ht <;> rw [ht] <;> decide
  have hsize2 : ∀ c ∈ d.size.data, isPySpace c = false ∧ c.isUpper = false := by
    intro c hc
    rw [hdata] at hc
    rcases List.mem_append.mp hc with hc1 | hc1
    · exact ⟨isPySpace_false_of_isDigit (hda c hc1), not_isUpper_of_isDigit (hda c hc1)⟩
    · rcases List.mem_cons.mp hc1 with rfl | hc2
      · exact ⟨by decide, by decide⟩
      · exact ⟨isPySpace_false_of_isDigit (hdb c hc2), not_isUpper_of_isDigit (hdb c hc2)⟩
  intro c hc
  rw [build_data] at hc
  simp only [List.append_assoc, List.mem_append] at hc
  rcases hc with h1 | h1 | h1 | h1 | h1 | h1 | h1 | h1 | h1
  · exact hckt c h1
  · exact hfam2 c h1
  · exact hdash c h1
  · exact hsize2 c h1
  · exact hdash c h1
  · exact hvar2 c h1
  · exact hdash c h1
  · exact htone2 c h1
  · exact hext c h1

/-- The name of every parsed file contains a whitespace character (the tone
word must be preceded by whitespace). -/
theorem parse_has_space {name : String} {d : Descriptor} (h : parse_filename name = some d) :
    ∃ c ∈ name.data, isPySpace c = true := by
  obtain ⟨base, bwt, toneL, sz, fam, hb, ht, -, -, -⟩ := parse_some_elim h
  obtain ⟨-, hbase⟩ := baseOf_spec hb
  obtain ⟨-, c, hc, hcs⟩ := splitTone_spec ht
  subst hbase
  obtain ⟨w, hw, hws⟩ := space_mem_norm_spaces hc hcs
  exact ⟨w, List.take_subset _ _ hw, hws⟩

/-- A generated name never parses: its base contains no whitespace, so the
tone stage fails. -/
theorem parse_build_none {name : String} {d : Descriptor}
    (h : parse_filename name = some d) :
    parse_filename (build_new_name d) = none := by
  have hns : ∀ c ∈ (build_new_name d).data, isPySpace c = false :=
    fun c hc => (build_char_facts h c hc).1
  cases hb : baseOf (build_new_name d) with
  | none => simp [parse_filename, hb]
  | some base =>
    obtain ⟨-, hbase⟩ := baseOf_spec hb
    have hnb : ∀ c ∈ base, isPySpace c = false := by
      intro c hc
      subst hbase
      cases hps : isPySpace c with
      | false => rfl
      | true =>
        obtain ⟨w, hw, hws⟩ := space_mem_norm_spaces hc hps
        rw [hns w (List.take_subset _ _ hw)] at hws
        cases hws
    simp [parse_filename, hb, splitTone_none hnb]

/-- A generated target never equals a parse-accepted source name. -/
theorem build_ne_parsed {n1 n2 : String} {d1 d2 : Descriptor}
    (h1 : parse_filename n1 = some d1) (h2 : parse_filename n2 = some d2) :
    build_new_name d1 ≠ n2 := by
  intro he
  obtain ⟨c, hc, hcs⟩ := parse_has_space h2
  have hns := (build_char_facts h1 c (by rw [he]; exact hc)).1
  rw [hns] at hcs
  cases hcs

/-! ## Planner lemmas -/

/-- A list with a member is not empty (Boolean form). -/
theorem isEmpty_false_of_mem {α : Type} {l : List α} {x : α} (h : x ∈ l) :
    l.isEmpty = false := by
  cases l with
  | nil => cases h
  | cons a as => rfl

/-- A non-nil list is not empty (Boolean form). -/
theorem isEmpty_false_of_ne_nil {α : Type} {l : List α} (h : l ≠ []) :
    l.isEmpty = false := by
  cases l with
  | nil => exact absurd rfl h
  | cons a as => rfl

/-- Membership in the sorted candidate list. -/
theorem mem_pngsOf {disk : List String} {n : String} :
    n ∈ pngsOf disk ↔ n ∈ disk ∧ pngSearch n.data = true := by
  unfold pngsOf
  rw [mem_sortNames, List.mem_filter]

/-- Membership in the mapping list: the source was listed, it parses, and the
target is its generated name, different from the source. -/
theorem mem_mappingsOf {pngs : List String} {m : String × String} :
    m ∈ mappingsOf pngs ↔
      m.1 ∈ pngs ∧ ∃ d, parse_filename m.1 = some d ∧
        m.2 = build_new_name d ∧ m.2 ≠ m.1 := by
  unfold mappingsOf
  rw [List.mem_filterMap]
  constructor
  · rintro ⟨p, hp, hf⟩
    cases hpd : parse_filename p with
    | none => rw [hpd] at hf; cases hf
    | some d =>
      rw [hpd] at hf
      dsimp only at hf
      split at hf
      · cases hf
      · rename_i hne
        cases hf
        exact ⟨hp, d, hpd, rfl, hne⟩
  · rintro ⟨hp, d, hpd, hb, hne⟩
    refine ⟨m.1, hp, ?_⟩
    rw [hpd]
    dsimp only
    rw [if_neg (by rw [← hb]; exact fun he => hne he)]
    rw [← hb]

/-- Membership in the surviving entries of a directory snapshot. -/
theorem mem_survivors {disk : List String} {m : String × String} :
    m ∈ survivors disk ↔
      (m.1 ∈ disk ∧ pngSearch m.1.data = true) ∧
        ∃ d, parse_filename m.1 = some d ∧ m.2 = build_new_name d ∧ m.2 ≠ m.1 := by
  unfold survivors
  rw [mem_mappingsOf, mem_pngsOf]

/-- Membership in the duplicated-target list. -/
theorem mem_dupeTargets {disk : List String} {t : String} :
    t ∈ dupeTargets disk ↔ 1 < (targetsOf disk).count t := by
  unfold dupeTargets dupesOf
  rw [mem_sortNames, List.mem_dedup, List.mem_filter]
  constructor
  · rintro ⟨-, hc⟩
    exact of_decide_eq_true hc
  · intro hc
    exact ⟨List.count_pos_iff.mp (by omega), decide_eq_true hc⟩

/-- A target name is never one of the own source names of the plan. -/
theorem target_not_source {disk : List String} {t : String} (ht : t ∈ targetsOf disk) :
    t ∉ (survivors disk).map Prod.fst := by
  intro hsrc
  obtain ⟨m1, hm1, he1⟩ := List.mem_map.mp ht
  obtain ⟨m2, hm2, he2⟩ := List.mem_map.mp hsrc
  obtain ⟨-, d1, hd1, hb1, -⟩ := mem_survivors.mp hm1
  obtain ⟨-, d2, hd2, -, -⟩ := mem_survivors.mp hm2
  exact build_ne_parsed hd1 hd2 (by rw [← hb1, he1, he2])

/-- The collision branch: duplicated targets abort the plan. -/
theorem planOf_collision {disk : List String} (h : dupeTargets disk ≠ []) :
    planOf disk = RunOutcome.collisionError (dupeTargets disk) := by
  have hsv : (survivors disk).isEmpty = false := by
    rcases List.exists_mem_of_ne_nil _ h with ⟨t, ht⟩
    have hc := mem_dupeTargets.mp ht
    have htm : t ∈ targetsOf disk := List.count_pos_iff.mp (by omega)
    obtain ⟨m, hm, -⟩ := List.mem_map.mp htm
    exact isEmpty_false_of_mem hm
  unfold planOf
  rw [hsv, isEmpty_false_of_ne_nil h]
  rfl

/-- The exists branch: with no duplicated target, offending targets abort
the plan. -/
theorem planOf_exists {disk : List String} (hnd : dupeTargets disk = [])
    (ho : offenders disk ≠ []) :
    planOf disk = RunOutcome.existsError ((offenders disk).map Prod.snd) := by
  have hsv : (survivors disk).isEmpty = false := by
    rcases List.exists_mem_of_ne_nil _ ho with ⟨m, hm⟩
    have := List.mem_filter.mp hm
    exact isEmpty_false_of_mem this.1
  unfold planOf
  rw [hsv, hnd, isEmpty_false_of_ne_nil ho]
  rfl

/-- The success branch. -/
theorem planOf_proposed {disk : List String} (hsv : survivors disk ≠ [])
    (hnd : dupeTargets disk = []) (ho : offenders disk = []) :
    planOf disk = RunOutcome.proposed (survivors disk) := by
  unfold planOf
  rw [isEmpty_false_of_ne_nil hsv, hnd, ho]
  rfl

/-- The no-candidate branch. -/
theorem planOf_noMatching {disk : List String} (hsv : survivors disk = []) :
    planOf disk = RunOutcome.noMatching := by
  unfold planOf
  rw [hsv]
  rfl

/-- Inversion of the success branch. -/
theorem planOf_proposed_inv {disk : List String} {maps : List (String × String)}
    (h : planOf disk = RunOutcome.proposed maps) : maps = survivors disk := by
  unfold planOf at h
  split at h
  · cases h
  · split at h
    · cases h
    · split at h
      · cases h
      · cases h
        rfl

/-! ## Applying a plan, and running the planner again -/

/-- A name present after applying a plan is a target of the plan, or was
present before and is not a source of the plan. -/
theorem mem_applyMappings {maps : List (String × String)} {disk : List String} {n : String}
    (h : n ∈ applyMappings maps disk) :
    (∃ m ∈ maps, n = m.2) ∨ (n ∈ disk ∧ ∀ m ∈ maps, n ≠ m.1) := by
  induction maps generalizing disk with
  | nil =>
    right
    refine ⟨h, ?_⟩
    intro m hm
    cases hm
  | cons m rest ih =>
    rw [applyMappings, List.foldl_cons] at h
    rcases ih h with ⟨m2, hm2, he⟩ | ⟨hd, hns⟩
    · exact Or.inl ⟨m2, List.mem_cons_of_mem m hm2, he⟩
    · unfold renameOn at hd
      obtain ⟨x, hx, hxe⟩ := List.mem_map.mp hd
      by_cases hxm : x = m.1
      · left
        refine ⟨m, List.mem_cons_self _ _, ?_⟩
        rw [← hxe, if_pos hxm]
      · right
        have hn : n = x := by rw [← hxe, if_neg hxm]
        subst hn
        refine ⟨hx, ?_⟩
        intro m2 hm2
        rcases List.mem_cons.mp hm2 with rfl | hm2r
        · exact hxm
        · exact hns m2 hm2r

/-- After applying the surviving plan of a directory, a second scan of the
directory finds no entry to rename. -/
theorem survivors_after_apply (disk : List String) :
    survivors (applyMappings (survivors disk) disk) = [] := by
  unfold survivors mappingsOf
  rw [List.filterMap_eq_nil_iff]
  intro p hp
  obtain ⟨hp1, hp2⟩ := mem_pngsOf.mp hp
  cases hpd : parse_filename p with
  | none => rfl
  | some d =>
    exfalso
    rcases mem_applyMappings hp1 with ⟨m, hm, rfl⟩ | ⟨hdisk, hns⟩
    · obtain ⟨-, d2, hd2, hb2, -⟩ := mem_survivors.mp hm
      rw [hb2, parse_build_none hd2] at hpd
      cases hpd
    · have hmem : (p, build_new_name d) ∈ survivors disk := by
        rw [mem_survivors]
        exact ⟨⟨hdisk, hp2⟩, d, hpd, rfl, build_ne_parsed hpd hpd⟩
      exact hns (p, build_new_name d) hmem rfl

/-! ## The execution loop -/

/-- When every move succeeds the loop applies the whole plan in order. -/
theorem executeMoves_ok (mover : String → String → Bool) :
    ∀ maps : List (String × String), (∀ p ∈ maps, mover p.1 p.2 = true) →
      executeMoves mover maps = (maps, none) := by
  intro maps
  induction maps with
  | nil => intro; rfl
  | cons m rest ih =>
    intro hall
    have h1 := hall m (List.mem_cons_self _ _)
    have h2 := ih (fun p hp => hall p (List.mem_cons_of_mem _ hp))
    simp [executeMoves, h1, h2]

/-- The loop stops at the first failing move: the prefix before it is
applied, the failing entry is returned, and whatever follows it has no
influence. -/
theorem executeMoves_fail (mover : String → String → Bool) (m : String × String)
    (hm : mover m.1 m.2 = false) :
    ∀ pre post : List (String × String), (∀ p ∈ pre, mover p.1 p.2 = true) →
      executeMoves mover (pre ++ m :: post) = (pre, some m) := by
  intro pre
  induction pre with
  | nil =>
    intro post _
    simp [executeMoves, hm]
  | cons p ps ih =>
    intro post hall
    have h1 := hall p (List.mem_cons_self _ _)
    have h2 := ih post (fun q hq => hall q (List.mem_cons_of_mem _ hq))
    simp [executeMoves, h1, h2]

/-! ## Concrete inputs used by the spec examples -/

def exCropLight : String := "CKT template 90x90 cropped light.png"

def exCropLightUpper : String := "CKT TEMPLATE 90X90 CROPPED LIGHT.png"

def exTarget : String := "ckt-template-90x90-crop-light.png"

def exFiveDigits : String := "CKT template 12345x67 light.png"

def exCroppedSmall : String := "CKT template 20x20 cropped small close light.png"

def exCroppedSmallRest : List Char := "CKT template 20x20 cropped small close".data

def diskCollision : List String := [exCropLight, exCropLightUpper]

def diskExists : List String := [exCropLight, exTarget]

def diskBoth : List String := [exCropLight, exCropLightUpper, exTarget]

def diskSingle : List String := [exCropLight]

def exDescriptor : Descriptor :=
  { original := exCropLight, family := sTemplate, size := "90x90",
    variant := sCrop, tone := sLight }

def exCroppedSmallDesc : Descriptor :=
  { original := exCroppedSmall, family := sTemplate, size := "20x20",
    variant := sCrop, tone := sLight }

/-- Discriminator for the exists-error outcome. -/
def isExistsErr : RunOutcome → Bool
  | RunOutcome.existsError _ => true
  | _ => false

/-- The remaining base after extension and tone removal, as the parser
computes it before the family and variant branches. -/
def restOf (name : String) : Option (List Char) :=
  (baseOf name).bind (fun base => (splitTone base).map Prod.fst)

/-! ## The claims -/

/-- C1: whenever two or more surviving plan entries compute the same target
name, the whole run fails with the collision error, which names exactly the
duplicated targets (all of them), and the directory is left unchanged. -/
theorem collision_aborts_run (disk : List String) (b : Bool)
    (h : ∃ t, 1 < (targetsOf disk).count t) :
    runMain disk b = (RunOutcome.collisionError (dupeTargets disk), disk) ∧
    ∀ t, t ∈ dupeTargets disk ↔ 1 < (targetsOf disk).count t := by
  obtain ⟨t0, ht0⟩ := h
  have hne : dupeTargets disk ≠ [] := List.ne_nil_of_mem (mem_dupeTargets.mpr ht0)
  refine ⟨?_, fun t => mem_dupeTargets⟩
  unfold runMain
  rw [planOf_collision hne]

/-- Witness for C1 at the collision pair of the spec: the run aborts naming
`ckt-template-90x90-crop-light.png` and mutates nothing. -/
theorem collision_aborts_run_witness :
    (∃ t, 1 < (targetsOf diskCollision).count t) ∧
    runMain diskCollision true =
      (RunOutcome.collisionError [exTarget], diskCollision) := by
  have h : ∃ t, 1 < (targetsOf diskCollision).count t := ⟨exTarget, by decide⟩
  have h2 := (collision_aborts_run diskCollision true h).1
  have h3 : dupeTargets diskCollision = [exTarget] := by decide
  rw [h3] at h2
  exact ⟨h, h2⟩

/-- C2 counterexample: in `diskBoth` a computed target equals an existing
file that is not one of the sources of the plan, yet the run does not fail with
the exists error: the collision check fires first. -/
theorem exists_error_iff_refuted :
    exTarget ∈ targetsOf diskBoth ∧ exTarget ∈ diskBoth ∧
    exTarget ∉ (survivors diskBoth).map Prod.fst ∧
    isExistsErr (runMain diskBoth true).1 = false := by
  exact ⟨by decide, by decide, by decide, by decide⟩

/-- C2 (amended): in the absence of duplicate targets, the planner fails
with the exists error exactly when some computed target equals the name of
a file already on disk; the error names every offending target, the
directory is unchanged, and a computed target never equals one of the
own source names of the plan, so a source file on disk never triggers the
check. -/
theorem exists_aborts_run (disk : List String) (b : Bool)
    (hnd : dupeTargets disk = []) :
    (offenders disk ≠ [] →
      runMain disk b =
        (RunOutcome.existsError ((offenders disk).map Prod.snd), disk)) ∧
    (offenders disk = [] → isExistsErr (runMain disk b).1 = false) ∧
    (∀ t, t ∈ (offenders disk).map Prod.snd ↔
      t ∈ targetsOf disk ∧ t ∈ disk ∧ t ∉ (survivors disk).map Prod.fst) ∧
    (∀ t, t ∈ targetsOf disk → t ∉ (survivors disk).map Prod.fst) := by
  refine ⟨?_, ?_, ?_, fun t ht => target_not_source ht⟩
  · intro ho
    unfold runMain
    rw [planOf_exists hnd ho]
  · intro ho
    by_cases hsv : survivors disk = []
    · unfold runMain
      rw [planOf_noMatching hsv]
      rfl
    · unfold runMain
      rw [planOf_proposed hsv hnd ho]
      rfl
  · intro t
    constructor
    · intro htm
      obtain ⟨m, hm, he⟩ := List.mem_map.mp htm
      have hf := List.mem_filter.mp hm
      have ht : t ∈ targetsOf disk := List.mem_map.mpr ⟨m, hf.1, he⟩
      refine ⟨ht, ?_, target_not_source ht⟩
      rw [← he]
      exact of_decide_eq_true hf.2
    · rintro ⟨ht, hd2, -⟩
      obtain ⟨m, hm, he⟩ := List.mem_map.mp ht
      refine List.mem_map.mpr ⟨m, List.mem_filter.mpr ⟨hm, ?_⟩, he⟩
      exact decide_eq_true (by rw [he]; exact hd2)

/-- Witness for C2 at the pre-existing-target example of the spec. -/
theorem exists_aborts_run_witness :
    dupeTargets diskExists = [] ∧ offenders diskExists ≠ [] ∧
    runMain diskExists true =
      (RunOutcome.existsError [exTarget], diskExists) := by
  have hnd : dupeTargets diskExists = [] := by decide
  have ho : offenders diskExists ≠ [] := by decide
  have h := (exists_aborts_run diskExists true hnd).1 ho
  have he : (offenders diskExists).map Prod.snd = [exTarget] := by decide
  rw [he] at h
  exact ⟨hnd, ho, h⟩

/-- C3: the end-to-end example: the exact input parses to the Descriptor
with family template, size 90x90, variant crop, tone light, and the naming
function maps that Descriptor to the target of the spec. -/
theorem parse_example_end_to_end :
    parse_filename exCropLight = some exDescriptor ∧
    exDescriptor.family = sTemplate ∧ exDescriptor.size = "90x90" ∧
    exDescriptor.variant = sCrop ∧ exDescriptor.tone = sLight ∧
    build_new_name exDescriptor = exTarget := by
  exact ⟨by decide, rfl, rfl, rfl, rfl, by decide⟩

/-- C4: every accepted filename yields a target matching the lowercase wire
format `ckt-<family>-<size>-<variant>-<tone>.<ext>` with each component in
its domain. -/
theorem target_matches_wire_format (name : String) (d : Descriptor)
    (h : parse_filename name = some d) : wireFormat (build_new_name d) := by
  obtain ⟨-, hf, hs, hv, ht⟩ := parse_fields h
  exact ⟨d.family, d.size, d.variant, d.tone, hf, hs, hv, ht, rfl,
    fun c hc => (build_char_facts h c hc).2⟩

/-- Witness for C4 at the first spec example. -/
theorem target_matches_wire_format_witness :
    parse_filename exCropLight = some exDescriptor ∧
    wireFormat (build_new_name exDescriptor) :=
  ⟨by decide, target_matches_wire_format exCropLight exDescriptor (by decide)⟩

/-- C5: after applying a valid plan, a second run over the mutated directory
finds zero entries to rename; indeed for every Descriptor produced by the
parser the generated name fails to parse (hence trivially either fails to
parse or maps to itself), so an already-renamed file is never selected
again. -/
theorem plan_apply_idempotent (disk : List String) (maps : List (String × String))
    (h : planOf disk = RunOutcome.proposed maps) :
    runMain disk true = (RunOutcome.proposed maps, applyMappings maps disk) ∧
    runMain (applyMappings maps disk) true =
      (RunOutcome.noMatching, applyMappings maps disk) ∧
    survivors (applyMappings maps disk) = [] ∧
    ∀ name d, parse_filename name = some d →
      parse_filename (build_new_name d) = none ∨
      (∃ d2, parse_filename (build_new_name d) = some d2 ∧
        build_new_name d2 = build_new_name d) := by
  have hmaps : maps = survivors disk := planOf_proposed_inv h
  subst hmaps
  have hafter := survivors_after_apply disk
  refine ⟨?_, ?_, hafter, ?_⟩
  · unfold runMain
    rw [h]
    rfl
  · unfold runMain
    rw [planOf_noMatching hafter]
  · intro name d hp
    exact Or.inl (parse_build_none hp)

/-- Witness for C5: one file is renamed, then the second run reports no
matching entries and mutates nothing. -/
theorem plan_apply_idempotent_witness :
    planOf diskSingle = RunOutcome.proposed [(exCropLight, exTarget)] ∧
    runMain (applyMappings [(exCropLight, exTarget)] diskSingle) true =
      (RunOutcome.noMatching, [exTarget]) := by
  have h : planOf diskSingle = RunOutcome.proposed [(exCropLight, exTarget)] := by
    decide
  have h2 := (plan_apply_idempotent diskSingle [(exCropLight, exTarget)] h).2.1
  have h3 : applyMappings [(exCropLight, exTarget)] diskSingle = [exTarget] := by
    decide
  rw [h3] at h2
  exact ⟨h, h2⟩

/-- C6: the execution loop applies the plan strictly in order through the
injected move primitive and aborts at the first failing move: the prefix
before the failure is applied and kept (no rollback), the failing entry is
reported, the entries after it have no influence on the result; when every
move succeeds the whole plan is applied in order. -/
theorem execute_stops_at_first_failure (mover : String → String → Bool)
    (maps pre post : List (String × String)) (m : String × String)
    (hsplit : maps = pre ++ m :: post)
    (hpre : ∀ p ∈ pre, mover p.1 p.2 = true)
    (hm : mover m.1 m.2 = false) :
    executeMoves mover maps = (pre, some m) ∧
    (∀ post2, executeMoves mover (pre ++ m :: post2) = (pre, some m)) ∧
    (∀ maps2, (∀ p ∈ maps2, mover p.1 p.2 = true) →
      executeMoves mover maps2 = (maps2, none)) := by
  subst hsplit
  exact ⟨executeMoves_fail mover m hm pre post hpre,
    fun post2 => executeMoves_fail mover m hm pre post2 hpre,
    fun maps2 h2 => executeMoves_ok mover maps2 h2⟩

/-- A move primitive that fails exactly on source `b`. -/
def moverBlocksB : String → String → Bool :=
  fun s _ => decide (s ≠ "b")

/-- Witness for C6: the first entry is applied, the second fails and is
reported, the third is never reached. -/
theorem execute_stops_at_first_failure_witness :
    executeMoves moverBlocksB [("a", "u"), ("b", "v"), ("c", "w")] =
      ([("a", "u")], some ("b", "v")) :=
  (execute_stops_at_first_failure moverBlocksB
    [("a", "u"), ("b", "v"), ("c", "w")] [("a", "u")] [("c", "w")] ("b", "v")
    rfl (by decide) (by decide)).1

/-- C7: when the remaining base (after extension and tone removal) contains
both the whole word `cropped` and one of the phrases `small close` or
`small far`, the parser records variant `crop`: the cropped branch is
evaluated first and short-circuits the small-phrase branches. -/
theorem cropped_precedence (name : String) (d : Descriptor) (rest : List Char)
    (hr : restOf name = some rest)
    (hc : hasWordCI wCropped rest = true)
    (hs : hasWordCI wSmallClose rest = true ∨ hasWordCI wSmallFar rest = true)
    (hp : parse_filename name = some d) :
    d.variant = sCrop := by
  obtain ⟨base, bwt, toneL, sz, fam, hb, ht, -, -, rfl⟩ := parse_some_elim hp
  simp only [restOf, hb, ht, Option.some_bind, Option.map_some'] at hr
  obtain rfl : bwt = rest := Option.some_inj.mp hr
  exact variantOf_cropped hc

/-- Witness for C7: a name containing both `cropped` and `small close`
parses with variant `crop`. -/
theorem cropped_precedence_witness : exCroppedSmallDesc.variant = sCrop :=
  cropped_precedence exCroppedSmall exCroppedSmallDesc exCroppedSmallRest
    (by decide) (by decide) (Or.inl (by decide)) (by decide)

/-- C8: parsing is all-or-nothing: either no Descriptor, or one in which
every field is non-empty and drawn from its domain. -/
theorem parse_all_or_nothing (name : String) :
    parse_filename name = none ∨
    ∃ d, parse_filename name = some d ∧
      d.original = name ∧ d.original ≠ "" ∧
      (d.family = sTemplate ∨ d.family = sAquarell) ∧
      d.size ≠ "" ∧ sizeWire d.size ∧
      (d.variant = sFull ∨ d.variant = sCrop ∨ d.variant = sClose) ∧
      (d.tone = sLight ∨ d.tone = sDark) := by
  cases hp : parse_filename name with
  | none => exact Or.inl rfl
  | some d =>
    right
    obtain ⟨ho, hf, hs, hv, ht⟩ := parse_fields hp
    refine ⟨d, rfl, ho, ?_, hf, ?_, hs, hv, ht⟩
    · intro he
      rw [ho] at he
      subst he
      obtain ⟨base, bwt, toneL, sz, fam, hb, -, -, -, -⟩ := parse_some_elim hp
      obtain ⟨hpng, -⟩ := baseOf_spec hb
      exact absurd hpng (by decide)
    · obtain ⟨a, b2, hd, -, -, h2, -, -, -⟩ := hs
      intro he
      rw [he] at hd
      have h0 : a ++ 'x' :: b2 = ([] : List Char) := hd.symm
      rcases List.append_eq_nil.mp h0 with ⟨-, h1⟩
      cases h1

/-- C9: the duplicate-target check is evaluated strictly before the
target-exists check: when both conditions hold the run aborts with the
collision error and never reports an exists error. -/
theorem collision_checked_before_exists (disk : List String) (b : Bool)
    (hd : ∃ t, 1 < (targetsOf disk).count t)
    (_he : ∃ m ∈ survivors disk, m.2 ∈ disk) :
    runMain disk b = (RunOutcome.collisionError (dupeTargets disk), disk) ∧
    isExistsErr (runMain disk b).1 = false := by
  obtain ⟨t0, ht0⟩ := hd
  have hne : dupeTargets disk ≠ [] := List.ne_nil_of_mem (mem_dupeTargets.mpr ht0)
  have h1 : runMain disk b = (RunOutcome.collisionError (dupeTargets disk), disk) := by
    unfold runMain
    rw [planOf_collision hne]
  refine ⟨h1, ?_⟩
  rw [h1]
  rfl

/-- Witness for C9 on a directory with both a duplicated target and a
pre-existing file equal to that target. -/
theorem collision_checked_before_exists_witness :
    runMain diskBoth true = (RunOutcome.collisionError [exTarget], diskBoth) ∧
    isExistsErr (runMain diskBoth true).1 = false := by
  have hd : ∃ t, 1 < (targetsOf diskBoth).count t := ⟨exTarget, by decide⟩
  have he : ∃ m ∈ survivors diskBoth, m.2 ∈ diskBoth :=
    ⟨(exCropLight, exTarget), by decide, by decide⟩
  have h := collision_checked_before_exists diskBoth true hd he
  have h3 : dupeTargets diskBoth = [exTarget] := by decide
  rw [h3] at h
  exact h

/-- C10: the size match is not anchored at digit boundaries: a name whose
dimension has five digits is accepted, and the size recorded is the
leftmost substring matching the two-to-four-digit pattern. -/
theorem size_match_unanchored :
    parse_filename exFiveDigits =
      some { original := exFiveDigits, family := sTemplate, size := "2345x67",
             variant := sFull, tone := sLight } := by
  decide

end RenameFrames
